import Mathlib

/-!
Verification development for the `ha_sunpura_ems` Home Assistant integration.

This file gives a shallow embedding, in Lean, of the scheduler core of the
repository: the battery optimizer (`custom_components/ha_ems/optimizer.py`)
and the schedule merger/encoder (`custom_components/ha_ems/hub.py`,
`SunpuraHub.push_schedule` and its helpers), together with theorems about
the properties claimed of them.

Modelling conventions:
* Python floats are modelled as rationals (`ℚ`); all operations used by the
  source on these values (comparison, `+`, `-`, `/`, `max`, `min`, `int()`
  truncation) are exact on the inputs that occur.
* Python `int` is modelled as `ℤ`; `//` is `Int.fdiv` (floor division).
* A Python `dict` is modelled as an association list with unique keys, in
  insertion order; assignment `d[k] = v` replaces in place or appends.
* Home Assistant entity reads performed by `BatteryOptimizer.optimize` are
  modelled as explicit inputs (`OptInputs`), one per entity read; the
  hourly consumption list and the solar-forecast dict are modelled as total
  functions on the hour (list indexing / `dict.get(h, 0.0)`).
-/

namespace SunpuraEms

/-- A Python value as it occurs in the cached device record: `None`, an
integer, a string, a boolean, or some other (opaque) non-null value. -/
inductive PyVal where
  | pnone : PyVal
  | pint : ℤ → PyVal
  | pstr : String → PyVal
  | pbool : Bool → PyVal
  | pother : ℕ → PyVal
deriving DecidableEq

/-- A Python dict with string keys, as an association list in insertion
order (keys unique, as for every real dict). -/
abbrev Rec := List (String × PyVal)

/-- The keys of a record, in order. -/
def keys (p : Rec) : List String := p.map Prod.fst

/-- Python dict lookup `d[k]` / `d.get(k)`: the value at the first matching
key, if any. -/
def rlookup (k : String) : Rec → Option PyVal
  | [] => Option.none
  | kv :: rest => if kv.1 = k then some kv.2 else rlookup k rest

/-- Python dict assignment `d[k] = v`: replace the binding in place if the
key is present, otherwise append it. -/
def dictSet : Rec → String → PyVal → Rec
  | [], k, v => [(k, v)]
  | kv :: rest, k, v => if kv.1 = k then (k, v) :: rest else kv :: dictSet rest k v

/-- Python `s.startswith(pre)`. -/
def pyStartswith (s pre : String) : Bool := pre.data.isPrefixOf s.data

/-- `hub._EMPTY_SLOT`: the string the code fills unused controlTime
positions with (note field 6 is `0` here, while `_slot_to_str` and the
comment above `_EMPTY_SLOT` in the source use `6`). -/
def emptySlot : String := "0,00:00,00:00,0,0,0,0,0,0,100,10"

/-- `hub._READONLY_FIELDS`: server-side read-only fields stripped from any
SET payload. -/
def readonlyFields : List String :=
  ["id", "sn", "createTime", "updateTime", "currentPower", "currentWorkMode",
   "modeStr", "aiActiveTime", "priceType", "smartModeLimitFlag"]

/-- A slot dict as accepted by `push_schedule` / `_slot_to_str`: each key is
optional, defaults are applied by `_slot_to_str`. The Python key `end` is
spelled `end_` here (`end` is a Lean keyword). -/
structure InSlot where
  enabled : Option Bool
  start : Option String
  end_ : Option String
  power_w : Option ℤ
  max_soc : Option ℤ
  min_soc : Option ℤ
deriving DecidableEq

/-- The default (all keys absent) slot dict. -/
def inDefault : InSlot :=
  ⟨Option.none, Option.none, Option.none, Option.none, Option.none, Option.none⟩

/-- `hub._slot_to_str`: encode a slot dict into the Sunpura controlTime CSV
string `enabled,start,end,power_w,0,6,0,0,0,max_soc,min_soc`. -/
def slotToStr (s : InSlot) : String :=
  let enabled : ℕ := if s.enabled.getD true then 1 else 0
  let start := s.start.getD "00:00"
  let e := s.end_.getD "00:00"
  let power_w := s.power_w.getD 0
  let max_soc := s.max_soc.getD 100
  let min_soc := s.min_soc.getD 10
  toString enabled ++ "," ++ start ++ "," ++ e ++ "," ++ toString power_w ++
    ",0,6,0,0,0," ++ toString max_soc ++ "," ++ toString min_soc

/-- The key `controlTime{i}` (Python f-string `f"controlTime{i}"`). -/
def ctKey (i : ℕ) : String := "controlTime" ++ toString i

/-- The copy loop at the start of `push_schedule`: keep every cached field
that is not read-only, not `None`, and not a `controlTime*` field. -/
def copyWritable (cached : Rec) : Rec :=
  cached.filter (fun kv =>
    decide (kv.1 ∉ readonlyFields) && !(kv.2 == PyVal.pnone) &&
      !pyStartswith kv.1 "controlTime")

/-- The loop `for i, slot in enumerate(active, start=1): payload[f"controlTime{i}"] = _slot_to_str(slot)`. -/
def writeActive (p : Rec) (i : ℕ) : List InSlot → Rec
  | [] => p
  | s :: rest => writeActive (dictSet p (ctKey i) (PyVal.pstr (slotToStr s))) (i + 1) rest

/-- The loop `for i in range(len(active) + 1, 17): payload[f"controlTime{i}"] = _EMPTY_SLOT`. -/
def fillEmpty (p : Rec) (activeLen : ℕ) : Rec :=
  (List.range' (activeLen + 1) (16 - activeLen)).foldl
    (fun q i => dictSet q (ctKey i) (PyVal.pstr emptySlot)) p

/-- The payload-building portion of `SunpuraHub.push_schedule`: copy the
writable cached fields, set `energyMode := 2` and `datalogSn`, write the
first 16 slots, and fill the remaining controlTime positions with
`_EMPTY_SLOT`. -/
def buildPayload (cached : Rec) (deviceId : String) (slots : List InSlot) : Rec :=
  fillEmpty
    (writeActive
      (dictSet (dictSet (copyWritable cached) "energyMode" (PyVal.pint 2))
        "datalogSn" (PyVal.pstr deviceId))
      1 (slots.take 16))
    (slots.take 16).length

/-- The hub state relevant to `push_schedule`: the main control device id
(`None`/empty modelled as `Option.none`) and the cached
`data["ai_system_times_with_energy_mode"]["obj"]` record (missing/null
coalesced to the empty record, as by the `or {}` chain in the source). -/
structure Hub where
  main_control_device_id : Option String
  aiObj : Rec
deriving DecidableEq

/-- The `slots` argument of `push_schedule`: either a list, or a dict as
produced by the Home Assistant YAML service-call parser (in which case the
code takes `list(slots.values())`). -/
inductive SlotsArg where
  | ofList : List InSlot → SlotsArg
  | ofDict : List (String × InSlot) → SlotsArg

/-- Result of a `push_schedule` call: the `result` code, whether the
dry-run branch was taken, the returned payload (dry run only), the hub
state afterwards, and the list of payloads written to the cloud API. -/
structure PushOut where
  result : ℤ
  dryRunFlag : Bool
  payload : Option Rec
  hub : Hub
  writes : List Rec
deriving DecidableEq

/-- `SunpuraHub.set_ai_system_times_with_energy_mode`: strip read-only and
null fields, call the API (modelled as the oracle `api`, returning the
response's `result` code), and on success fold the clean fields into the
cached obj. Returns the result code, the new hub state and the write log. -/
def setAiSystemTimes (hub : Hub) (api : Rec → ℤ) (data : Rec) : ℤ × Hub × List Rec :=
  let clean := data.filter (fun kv =>
    decide (kv.1 ∉ readonlyFields) && !(kv.2 == PyVal.pnone))
  let r := api clean
  let hub' :=
    if r = 0 then
      { hub with aiObj := clean.foldl (fun o kv => dictSet o kv.1 kv.2) hub.aiObj }
    else hub
  (r, hub', [clean])

/-- `SunpuraHub.push_schedule`. A missing device id returns result `-1`
without building a payload; a dict-shaped `slots` argument is converted to
the list of its values; on `dry_run` the merged payload is returned with
result `0`, no write and no cache change; otherwise the payload is sent via
`set_ai_system_times_with_energy_mode`. -/
def pushSchedule (hub : Hub) (api : Rec → ℤ) (slotsArg : SlotsArg) (dry_run : Bool) :
    PushOut :=
  match hub.main_control_device_id with
  | Option.none =>
      { result := -1, dryRunFlag := false, payload := Option.none, hub := hub, writes := [] }
  | some dev =>
      let slots := match slotsArg with
        | SlotsArg.ofDict d => d.map Prod.snd
        | SlotsArg.ofList l => l
      let payload := buildPayload hub.aiObj dev slots
      if dry_run then
        { result := 0, dryRunFlag := true, payload := some payload, hub := hub, writes := [] }
      else
        let out := setAiSystemTimes hub api payload
        { result := out.1, dryRunFlag := false, payload := Option.none,
          hub := out.2.1, writes := out.2.2 }

/-! ## Optimizer embedding (`optimizer.py`) -/

/-- `optimizer._next_quarter`: the quarter-hour 15 minutes after `(h, m)`. -/
def nextQuarter (h m : ℕ) : ℕ × ℕ :=
  let m' := m + 15
  if 60 ≤ m' then ((h + 1) % 24, m' - 60) else (h, m')

/-- Two-digit zero padding, as the Python format `f"{n:02d}"` for `n ≥ 0`. -/
def pad2 (n : ℕ) : String := if n < 10 then "0" ++ toString n else toString n

/-- `optimizer._quarter_to_str`: `f"{h:02d}:{m:02d}"`. -/
def quarterToStr (h m : ℕ) : String := pad2 h ++ ":" ++ pad2 m

/-- Python `int()` applied to a float: truncation toward zero. -/
def pyInt (q : ℚ) : ℤ := if 0 ≤ q then ⌊q⌋ else ⌈q⌉

/-- Lexicographic (raw time-of-day) order on `(hour, minute)` pairs — the
order Python's tuple comparison uses in `sorted(...)`. -/
def qLt (a b : ℕ × ℕ) : Prop := a.1 < b.1 ∨ (a.1 = b.1 ∧ a.2 < b.2)

instance (a b : ℕ × ℕ) : Decidable (qLt a b) := by unfold qLt; exact inferInstance

/-- Insert a quarter into a strictly-increasing list, keeping it
strictly increasing (duplicates dropped). -/
def insertQ (q : ℕ × ℕ) : List (ℕ × ℕ) → List (ℕ × ℕ)
  | [] => [q]
  | x :: xs => if qLt q x then q :: x :: xs else if q = x then x :: xs else x :: insertQ q xs

/-- Python `sorted(set(l))` on `(h, m)` tuples: the strictly increasing
enumeration of the distinct elements of `l`. -/
def dedupSort (l : List (ℕ × ℕ)) : List (ℕ × ℕ) := l.foldr insertQ []

/-- `optimizer._group_consecutive_quarters`, inner loop: `current` is the
run being grown (always nonempty). -/
def groupGo (current : List (ℕ × ℕ)) : List (ℕ × ℕ) → List (List (ℕ × ℕ))
  | [] => [current]
  | q :: rest =>
      if q = nextQuarter (current.getLastD (0, 0)).1 (current.getLastD (0, 0)).2 then
        groupGo (current ++ [q]) rest
      else current :: groupGo [q] rest

/-- `optimizer._group_consecutive_quarters`: group a sorted list of quarter
tuples into maximal runs of consecutive quarters. -/
def groupConsecutive : List (ℕ × ℕ) → List (List (ℕ × ℕ))
  | [] => []
  | q :: rest => groupGo [q] rest

/-- All entity reads done by `BatteryOptimizer.optimize`, as explicit
inputs: operating mode and active flag, the four `input_number` values, the
battery SOC, EV charging flag, power limits from the cached device config
(or defaults), the resolved price curve `(hour, minute, price)`, the solar
forecast (`solar.get(h, 0.0)` as a total function) and the hourly
consumption list (indexing as a total function). -/
structure OptInputs where
  mode : String
  active : String
  reserve_soc : ℚ
  ev_reserve_soc : ℚ
  high_price : ℚ
  low_price : ℚ
  current_soc : ℚ
  ev_charging : Bool
  max_charge_w : ℤ
  max_discharge_w : ℤ
  prices : List (ℕ × ℕ × ℚ)
  solar : ℕ → ℚ
  consumption : ℕ → ℚ

/-- `effective_reserve = reserve_soc + (ev_reserve_soc if ev_charging else 0.0)`. -/
def effectiveReserve (I : OptInputs) : ℚ :=
  I.reserve_soc + (if I.ev_charging then I.ev_reserve_soc else 0)

/-- One iteration of the classification loop of `optimize`: append the
bucket to the charge or discharge quarter list according to the mode's
policy (`0.025 = 1/40`, `0.125 = 1/8`). -/
def classifyStep (I : OptInputs) (acc : List (ℕ × ℕ) × List (ℕ × ℕ))
    (x : ℕ × ℕ × ℚ) : List (ℕ × ℕ) × List (ℕ × ℕ) :=
  if I.mode = "Prijs-arbitrage" then
    if x.2.2 ≤ I.low_price ∧ max 0 (I.solar x.1 / 4 - I.consumption x.1 / 4) < 1/40 then
      (acc.1 ++ [(x.1, x.2.1)], acc.2)
    else if I.high_price ≤ x.2.2 then (acc.1, acc.2 ++ [(x.1, x.2.1)])
    else acc
  else if I.mode = "Zelfverbruik" then
    if I.high_price ≤ x.2.2 ∧ effectiveReserve I + 10 < I.current_soc then
      (acc.1, acc.2 ++ [(x.1, x.2.1)])
    else acc
  else
    if x.2.2 ≤ I.low_price ∧ max 0 (I.solar x.1 / 4 - I.consumption x.1 / 4) < 1/40 then
      (acc.1 ++ [(x.1, x.2.1)], acc.2)
    else if I.high_price ≤ x.2.2 ∧ max 0 (I.solar x.1 / 4 - I.consumption x.1 / 4) < 1/8 then
      (acc.1, acc.2 ++ [(x.1, x.2.1)])
    else acc

/-- The classification loop of `optimize`: returns
`(charge_quarters, discharge_quarters)` in append order. -/
def classifyQuarters (I : OptInputs) : List (ℕ × ℕ) × List (ℕ × ℕ) :=
  I.prices.foldl (classifyStep I) ([], [])

/-- `charge_quarters = sorted(set(charge_quarters))`. -/
def chargeQuarters (I : OptInputs) : List (ℕ × ℕ) :=
  dedupSort (classifyQuarters I).1

/-- `discharge_quarters = sorted(set(discharge_quarters) - set(charge_quarters))`. -/
def dischargeQuarters (I : OptInputs) : List (ℕ × ℕ) :=
  dedupSort ((classifyQuarters I).2.filter (fun q => decide (q ∉ chargeQuarters I)))

/-- A slot dict as produced by `optimize` (keys `enabled`, `start`, `end`,
`power_w`, `max_soc`, `min_soc`; `end` spelled `end_`). -/
structure OptSlot where
  enabled : Bool
  start : String
  end_ : String
  power_w : ℤ
  max_soc : ℤ
  min_soc : ℤ
deriving DecidableEq

/-- The slot built for a charge run: power `-max_charge_w`, SOC bounds
`max = 95`, `min = int(effective_reserve)`. -/
def chargeSlot (I : OptInputs) (g : List (ℕ × ℕ)) : OptSlot :=
  let first := g.headD (0, 0)
  let last := g.getLastD (0, 0)
  let e := nextQuarter last.1 last.2
  { enabled := true, start := quarterToStr first.1 first.2, end_ := quarterToStr e.1 e.2,
    power_w := -I.max_charge_w, max_soc := 95, min_soc := pyInt (effectiveReserve I) }

/-- The slot built for a discharge run: power `+max_discharge_w`, SOC
bounds `max = 100`, `min = int(effective_reserve)`. -/
def dischargeSlot (I : OptInputs) (g : List (ℕ × ℕ)) : OptSlot :=
  let first := g.headD (0, 0)
  let last := g.getLastD (0, 0)
  let e := nextQuarter last.1 last.2
  { enabled := true, start := quarterToStr first.1 first.2, end_ := quarterToStr e.1 e.2,
    power_w := I.max_discharge_w, max_soc := 100, min_soc := pyInt (effectiveReserve I) }

/-- The slot built for an EV overnight top-up run: power `-(max_charge_w // 2)`,
`max_soc = int(min(95, reserve + ev_reserve + 15))`, `min_soc = int(reserve)`. -/
def evSlot (I : OptInputs) (g : List (ℕ × ℕ)) : OptSlot :=
  let first := g.headD (0, 0)
  let last := g.getLastD (0, 0)
  let e := nextQuarter last.1 last.2
  { enabled := true, start := quarterToStr first.1 first.2, end_ := quarterToStr e.1 e.2,
    power_w := -(I.max_charge_w.fdiv 2),
    max_soc := pyInt (min 95 (I.reserve_soc + I.ev_reserve_soc + 15)),
    min_soc := pyInt I.reserve_soc }

/-- A digit string parsed as by Python `int(...)` on the (sign-free,
whitespace-free) substrings occurring in `_quarter_in_slot`; `none` models
the `ValueError` path. -/
def parseNat : List Char → Option ℕ
  | [] => Option.none
  | cs => cs.foldl
      (fun acc c => match acc with
        | Option.none => Option.none
        | some n => if c.isDigit then some (n * 10 + (c.toNat - 48)) else Option.none)
      (some 0)

/-- `optimizer._quarter_in_slot`: whether quarter `q` falls inside the
slot's `start`–`end` range (parsing the `HH:MM` strings; any parse failure
hits the `except` branch and yields `False`). -/
def quarterInSlot (q : ℕ × ℕ) (s : OptSlot) : Bool :=
  match parseNat (s.start.data.take 2), parseNat (s.start.data.drop 3),
      parseNat (s.end_.data.take 2), parseNat (s.end_.data.drop 3) with
  | some sh, some sm, some eh, some em =>
      let qmins := q.1 * 60 + q.2
      let smins := sh * 60 + sm
      let emins := eh * 60 + em
      if smins ≤ emins then decide (smins ≤ qmins ∧ qmins < emins)
      else decide (smins ≤ qmins ∨ qmins < emins)
  | _, _, _, _ => false

/-- The charge/discharge slot-building loops (`for group in ...: if
len(slots) >= 14: break; slots.append(...)`), shared shape. -/
def appendRuns (cap : ℕ) (mk : List (ℕ × ℕ) → OptSlot) :
    List (List (ℕ × ℕ)) → List OptSlot → List OptSlot
  | [], slots => slots
  | g :: gs, slots =>
      if cap ≤ slots.length then slots
      else appendRuns cap mk gs (slots ++ [mk g])

/-- The EV overnight loop: cap 15, and skip a run whose first quarter is
already covered by an existing charge slot. -/
def appendEvRuns (I : OptInputs) : List (List (ℕ × ℕ)) → List OptSlot → List OptSlot
  | [], slots => slots
  | g :: gs, slots =>
      if 15 ≤ slots.length then slots
      else if slots.any (fun s => decide (s.power_w < 0) && quarterInSlot (g.headD (0, 0)) s) then
        appendEvRuns I gs slots
      else appendEvRuns I gs (slots ++ [evSlot I g])

/-- Stable ascending insertion by price (third component), placing an
element after all already-placed elements of strictly smaller key and
before the first of larger-or-equal key — the order Python's stable
`sorted(..., key=lambda x: x[2])` produces. -/
def insertByPrice (x : ℕ × ℕ × ℚ) : List (ℕ × ℕ × ℚ) → List (ℕ × ℕ × ℚ)
  | [] => [x]
  | y :: ys => if y.2.2 < x.2.2 then y :: insertByPrice x ys else x :: y :: ys

/-- `sorted(night, key=lambda x: x[2])` as a stable insertion sort. -/
def sortByPrice (l : List (ℕ × ℕ × ℚ)) : List (ℕ × ℕ × ℚ) := l.foldr insertByPrice []

/-- The EV quarter selection: the 22:00–06:00 buckets sorted by price, the
12 cheapest kept, deduplicated and sorted by time
(`sorted({(h, m) for h, m, _ in night_quarters[:12]})`). -/
def nightQuarters (I : OptInputs) : List (ℕ × ℕ) :=
  let night := sortByPrice (I.prices.filter (fun x => decide (22 ≤ x.1) || decide (x.1 < 6)))
  dedupSort ((night.take 12).map (fun x => (x.1, x.2.1)))

/-- The charge- and discharge-run stage of `optimize`: charge runs first,
then discharge runs, stopping once 14 slots exist. -/
def chargeDischargeStage (I : OptInputs) : List OptSlot :=
  appendRuns 14 (dischargeSlot I) (groupConsecutive (dischargeQuarters I))
    (appendRuns 14 (chargeSlot I) (groupConsecutive (chargeQuarters I)) [])

/-- `BatteryOptimizer.optimize`: returns `[]` when disabled, otherwise the
charge/discharge slots followed (when the EV is charging and fewer than 15
slots exist) by the EV overnight top-up slots. -/
def optimize (I : OptInputs) : List OptSlot :=
  if I.active ≠ "on" ∨ I.mode = "Uit" then []
  else if I.ev_charging ∧ (chargeDischargeStage I).length < 15 then
    appendEvRuns I (groupConsecutive (nightQuarters I)) (chargeDischargeStage I)
  else chargeDischargeStage I

/-! ## Association-list (Python dict) lemmas -/

theorem keys_append (p q : Rec) : keys (p ++ q) = keys p ++ keys q :=
  List.map_append _ _ _

theorem rlookup_cons {k : String} {kv : String × PyVal} {rest : Rec} :
    rlookup k (kv :: rest) = if kv.1 = k then some kv.2 else rlookup k rest := rfl

theorem rlookup_eq_none {k : String} {p : Rec} :
    rlookup k p = Option.none ↔ k ∉ keys p := by
  induction p with
  | nil => simp [rlookup, keys]
  | cons kv rest ih =>
      unfold keys at ih ⊢
      simp only [rlookup, List.map_cons, List.mem_cons]
      by_cases h : kv.1 = k
      · subst h
        simp
      · rw [if_neg h, ih]
        simp only [not_or]
        constructor
        · exact fun hn => ⟨fun he => h he.symm, hn⟩
        · exact fun hn => hn.2

theorem rlookup_append_left {k : String} {p q : Rec} {v : PyVal}
    (h : rlookup k p = some v) : rlookup k (p ++ q) = some v := by
  induction p with
  | nil => simp [rlookup] at h
  | cons kv rest ih =>
      rw [List.cons_append]
      unfold rlookup at h ⊢
      by_cases hk : kv.1 = k
      · rwa [if_pos hk] at h ⊢
      · rw [if_neg hk] at h ⊢
        exact ih h

theorem rlookup_append_right {k : String} {p q : Rec} (h : k ∉ keys p) :
    rlookup k (p ++ q) = rlookup k q := by
  induction p with
  | nil => simp
  | cons kv rest ih =>
      unfold keys at h
      simp only [List.map_cons, List.mem_cons, not_or] at h
      rw [List.cons_append, rlookup_cons]
      rw [if_neg (fun (he : kv.1 = k) => h.1 he.symm)]
      exact ih h.2

theorem nodup_val_unique {p : Rec} {k : String} {v v' : PyVal}
    (hnd : (keys p).Nodup) (h : (k, v) ∈ p) (h' : (k, v') ∈ p) : v = v' := by
  induction p with
  | nil => simp at h
  | cons kv rest ih =>
      unfold keys at hnd
      rw [List.map_cons, List.nodup_cons] at hnd
      rcases List.mem_cons.mp h with h0 | h0 <;>
        rcases List.mem_cons.mp h' with h1 | h1
      · exact congrArg Prod.snd (h0.trans h1.symm)
      · exfalso
        apply hnd.1
        have hk : kv.1 = k := by rw [← h0]
        have hmem : k ∈ List.map Prod.fst rest := List.mem_map_of_mem Prod.fst h1
        rw [hk]
        exact hmem
      · exfalso
        apply hnd.1
        have hk : kv.1 = k := by rw [← h1]
        have hmem : k ∈ List.map Prod.fst rest := List.mem_map_of_mem Prod.fst h0
        rw [hk]
        exact hmem
      · exact ih hnd.2 h0 h1

theorem rlookup_of_mem {p : Rec} {k : String} {v : PyVal}
    (hnd : (keys p).Nodup) (h : (k, v) ∈ p) : rlookup k p = some v := by
  induction p with
  | nil => simp at h
  | cons kv rest ih =>
      unfold keys at hnd
      rw [List.map_cons, List.nodup_cons] at hnd
      unfold rlookup
      rcases List.mem_cons.mp h with h0 | h0
      · rw [if_pos (congrArg Prod.fst h0).symm, ← h0]
      · have hne : kv.1 ≠ k := by
          intro he
          apply hnd.1
          rw [he]
          exact List.mem_map_of_mem Prod.fst h0
        rw [if_neg hne]
        exact ih hnd.2 h0

theorem mem_dictSet {p : Rec} {k : String} {v : PyVal} {a : String × PyVal}
    (h : a ∈ dictSet p k v) : a ∈ p ∨ a = (k, v) := by
  induction p with
  | nil => simpa [dictSet] using h
  | cons kv rest ih =>
      by_cases hk : kv.1 = k
      · simp only [dictSet, if_pos hk] at h
        rcases List.mem_cons.mp h with h0 | h0
        · exact Or.inr h0
        · exact Or.inl (List.mem_cons_of_mem _ h0)
      · simp only [dictSet, if_neg hk] at h
        rcases List.mem_cons.mp h with h0 | h0
        · exact Or.inl (h0 ▸ List.mem_cons_self _ _)
        · rcases ih h0 with h1 | h1
          · exact Or.inl (List.mem_cons_of_mem _ h1)
          · exact Or.inr h1

theorem mem_keys_dictSet {p : Rec} {k a : String} {v : PyVal} :
    a ∈ keys (dictSet p k v) ↔ a ∈ keys p ∨ a = k := by
  induction p with
  | nil => simp [dictSet, keys]
  | cons kv rest ih =>
      by_cases hk : kv.1 = k
      · simp only [dictSet, if_pos hk, keys, List.map_cons, List.mem_cons]
        constructor
        · rintro (h | h)
          · exact Or.inr h
          · exact Or.inl (Or.inr h)
        · rintro ((h | h) | h)
          · exact Or.inl (hk ▸ h)
          · exact Or.inr h
          · exact Or.inl h
      · simp only [dictSet, if_neg hk, keys, List.map_cons, List.mem_cons] at ih ⊢
        rw [ih]
        tauto

theorem dictSet_eq_append {p : Rec} {k : String} (v : PyVal) (h : k ∉ keys p) :
    dictSet p k v = p ++ [(k, v)] := by
  induction p with
  | nil => simp [dictSet]
  | cons kv rest ih =>
      unfold keys at h
      simp only [List.map_cons, List.mem_cons, not_or] at h
      unfold dictSet
      rw [if_neg (fun (he : kv.1 = k) => h.1 he.symm), List.cons_append]
      rw [ih h.2]

theorem rlookup_dictSet_self {p : Rec} {k : String} {v : PyVal} :
    rlookup k (dictSet p k v) = some v := by
  induction p with
  | nil => simp [dictSet, rlookup]
  | cons kv rest ih =>
      unfold dictSet
      by_cases hk : kv.1 = k
      · rw [if_pos hk]
        simp [rlookup]
      · rw [if_neg hk]
        unfold rlookup
        rw [if_neg hk]
        exact ih

theorem rlookup_dictSet_ne {p : Rec} {k a : String} {v : PyVal} (h : a ≠ k) :
    rlookup a (dictSet p k v) = rlookup a p := by
  induction p with
  | nil =>
      show rlookup a [(k, v)] = rlookup a []
      rw [rlookup_cons, if_neg (fun (he : k = a) => h he.symm)]
  | cons kv rest ih =>
      unfold dictSet
      by_cases hk : kv.1 = k
      · rw [if_pos hk, rlookup_cons, rlookup_cons]
        rw [if_neg (fun (he : k = a) => h he.symm)]
        rw [if_neg (fun (he : kv.1 = a) => h (hk.symm.trans he).symm)]
      · rw [if_neg hk, rlookup_cons, rlookup_cons]
        by_cases ha : kv.1 = a
        · rw [if_pos ha, if_pos ha]
        · rw [if_neg ha, if_neg ha]
          exact ih

/-! ## controlTime key lemmas -/

theorem pyStartswith_ctKey (i : ℕ) : pyStartswith (ctKey i) "controlTime" = true := by
  unfold pyStartswith ctKey
  rw [String.data_append]
  exact List.isPrefixOf_iff_prefix.mpr (List.prefix_append _ _)

theorem ne_ctKey_of_not_startswith {k : String} {i : ℕ}
    (h : pyStartswith k "controlTime" = false) : k ≠ ctKey i := by
  intro he
  rw [he, pyStartswith_ctKey] at h
  simp at h

theorem ctKey_injOn : ∀ i < 17, ∀ j < 17, i ≠ j → ctKey i ≠ ctKey j := by decide

/-! ## `push_schedule` payload normal form -/

/-- The payload after the copy loop and the `energyMode`/`datalogSn`
assignments, before any controlTime field is written. -/
def basePayload (cached : Rec) (deviceId : String) : Rec :=
  dictSet (dictSet (copyWritable cached) "energyMode" (PyVal.pint 2))
    "datalogSn" (PyVal.pstr deviceId)

/-- The block of controlTime entries `a, a+1, ..., a+b-1` with values `w`. -/
def ctBlock (w : ℕ → PyVal) (a b : ℕ) : Rec :=
  (List.range' a b).map (fun i => (ctKey i, w i))

theorem mem_copyWritable {cached : Rec} {kv : String × PyVal} :
    kv ∈ copyWritable cached ↔
      kv ∈ cached ∧ kv.1 ∉ readonlyFields ∧ kv.2 ≠ PyVal.pnone ∧
        pyStartswith kv.1 "controlTime" = false := by
  unfold copyWritable
  rw [List.mem_filter]
  simp [Bool.and_eq_true, decide_eq_true_eq, and_assoc]

theorem keys_base_not_ct {cached : Rec} {dev k : String}
    (h : k ∈ keys (basePayload cached dev)) : pyStartswith k "controlTime" = false := by
  unfold basePayload at h
  rcases mem_keys_dictSet.mp h with h1 | h1
  · rcases mem_keys_dictSet.mp h1 with h2 | h2
    · rcases List.mem_map.mp h2 with ⟨kv, hkv, hfst⟩
      exact hfst ▸ (mem_copyWritable.mp hkv).2.2.2
    · subst h2; decide
  · subst h1; decide

theorem foldl_dictSet_range' (w : ℕ → PyVal) :
    ∀ (b a : ℕ) (q : Rec), a + b ≤ 17 →
      (∀ j, a ≤ j → j ≤ 16 → ctKey j ∉ keys q) →
      (List.range' a b).foldl (fun p i => dictSet p (ctKey i) (w i)) q = q ++ ctBlock w a b
  | 0, a, q, _, _ => by simp [ctBlock]
  | b + 1, a, q, hb, hq => by
      rw [List.range'_succ, List.foldl_cons]
      have ha16 : a ≤ 16 := by omega
      have hnot : ctKey a ∉ keys q := hq a le_rfl ha16
      rw [dictSet_eq_append (w a) hnot]
      rw [foldl_dictSet_range' w b (a + 1) (q ++ [(ctKey a, w a)]) (by omega)
        (fun j hj hj16 => by
          rw [keys_append]
          intro hmem
          rcases List.mem_append.mp hmem with hm | hm
          · exact hq j (by omega) hj16 hm
          · simp only [keys, List.map_cons, List.map_nil, List.mem_singleton] at hm
            exact ctKey_injOn j (by omega) a (by omega) (by omega) hm)]
      simp only [ctBlock, List.range'_succ, List.map_cons, List.append_assoc,
        List.singleton_append]

theorem writeActive_eq :
    ∀ (active : List InSlot) (a : ℕ) (q : Rec), a + active.length ≤ 17 →
      (∀ j, a ≤ j → j ≤ 16 → ctKey j ∉ keys q) →
      writeActive q a active =
        q ++ ctBlock (fun j => PyVal.pstr (slotToStr (active.getD (j - a) inDefault)))
          a active.length
  | [], a, q, _, _ => by simp [writeActive, ctBlock]
  | s :: rest, a, q, hb, hq => by
      simp only [writeActive, List.length_cons]
      have ha16 : a ≤ 16 := by simp only [List.length_cons] at hb; omega
      have hnot : ctKey a ∉ keys q := hq a le_rfl ha16
      rw [dictSet_eq_append (PyVal.pstr (slotToStr s)) hnot]
      rw [writeActive_eq rest (a + 1) (q ++ [(ctKey a, PyVal.pstr (slotToStr s))])
        (by simp only [List.length_cons] at hb; omega)
        (fun j hj hj16 => by
          rw [keys_append]
          intro hmem
          rcases List.mem_append.mp hmem with hm | hm
          · exact hq j (by omega) hj16 hm
          · simp only [keys, List.map_cons, List.map_nil, List.mem_singleton] at hm
            exact ctKey_injOn j (by omega) a (by omega) (by omega) hm)]
      simp only [ctBlock, List.range'_succ, List.map_cons, List.append_assoc,
        List.singleton_append]
      congr 1
      congr 1
      · simp
      · apply List.map_congr_left
        intro x hx
        rcases List.mem_range'_1.mp hx with ⟨hx1, _⟩
        congr 2
        have : x - a = (x - (a + 1)) + 1 := by omega
        rw [this]
        simp [List.getD_cons_succ]

theorem ctBlock_split (w₁ w₂ w : ℕ → PyVal) (n : ℕ) (hn : n ≤ 16)
    (hw1 : ∀ j, 1 ≤ j → j ≤ n → w j = w₁ j)
    (hw2 : ∀ j, n + 1 ≤ j → j ≤ 16 → w j = w₂ j) :
    ctBlock w₁ 1 n ++ ctBlock w₂ (n + 1) (16 - n) = ctBlock w 1 16 := by
  have hr : List.range' 1 n ++ List.range' (n + 1) (16 - n) = List.range' 1 16 := by
    rw [show n + 1 = 1 + n from by omega]
    rw [List.range'_append_1 1 n (16 - n)]
    rw [show 16 - n + n = 16 from by omega]
  unfold ctBlock
  rw [← hr, List.map_append]
  congr 1
  · apply List.map_congr_left
    intro x hx
    rcases List.mem_range'_1.mp hx with ⟨h1, h2⟩
    rw [(hw1 x h1 (by omega)).symm]
  · apply List.map_congr_left
    intro x hx
    rcases List.mem_range'_1.mp hx with ⟨h1, h2⟩
    rw [(hw2 x h1 (by omega)).symm]

/-- The value written at controlTime position `j` (1-based): the encoding
of slot `j` when `j ≤ len(active)`, else the disabled-slot string. -/
def ctVal (slots : List InSlot) (j : ℕ) : PyVal :=
  PyVal.pstr (if j ≤ (slots.take 16).length then
    slotToStr ((slots.take 16).getD (j - 1) inDefault) else emptySlot)

theorem buildPayload_eq (cached : Rec) (dev : String) (slots : List InSlot) :
    buildPayload cached dev slots = basePayload cached dev ++ ctBlock (ctVal slots) 1 16 := by
  unfold buildPayload fillEmpty
  have hlen : (slots.take 16).length ≤ 16 := by simp
  have hbase : ∀ j, 1 ≤ j → j ≤ 16 → ctKey j ∉ keys (basePayload cached dev) := by
    intro j _ _ hmem
    have hh := keys_base_not_ct hmem
    rw [pyStartswith_ctKey] at hh
    simp at hh
  rw [show dictSet (dictSet (copyWritable cached) "energyMode" (PyVal.pint 2))
        "datalogSn" (PyVal.pstr dev) = basePayload cached dev from rfl]
  rw [writeActive_eq (slots.take 16) 1 (basePayload cached dev) (by omega) hbase]
  rw [foldl_dictSet_range' (fun _ => PyVal.pstr emptySlot) (16 - (slots.take 16).length)
    ((slots.take 16).length + 1) _ (by omega)
    (fun j hj hj16 => by
      rw [keys_append]
      intro hmem
      rcases List.mem_append.mp hmem with hm | hm
      · exact hbase j (by omega) hj16 hm
      · simp only [ctBlock, keys, List.map_map, List.mem_map] at hm
        rcases hm with ⟨x, hx, he⟩
        rcases List.mem_range'_1.mp hx with ⟨hx1, hx2⟩
        exact ctKey_injOn x (by omega) j (by omega) (by omega) (by simpa using he))]
  rw [List.append_assoc]
  congr 1
  exact ctBlock_split _ _ (ctVal slots) (slots.take 16).length hlen
    (fun j h1 h2 => by unfold ctVal; rw [if_pos h2])
    (fun j h1 h2 => by unfold ctVal; rw [if_neg (by omega)])

theorem rlookup_ctBlock (w : ℕ → PyVal) :
    ∀ (b a t : ℕ), a ≤ t → t < a + b → a + b ≤ 17 →
      rlookup (ctKey t) (ctBlock w a b) = some (w t)
  | 0, a, t, h1, h2, _ => by omega
  | b + 1, a, t, h1, h2, h3 => by
      unfold ctBlock
      rw [List.range'_succ, List.map_cons]
      by_cases he : t = a
      · subst he; simp [rlookup]
      · simp only [rlookup, if_neg (ctKey_injOn a (by omega) t (by omega) (fun hh => he hh.symm))]
        exact rlookup_ctBlock w b (a + 1) t (by omega) (by omega) (by omega)

theorem mem_keys_ctBlock {w : ℕ → PyVal} {a b : ℕ} {k : String} :
    k ∈ keys (ctBlock w a b) ↔ ∃ j, a ≤ j ∧ j < a + b ∧ k = ctKey j := by
  unfold ctBlock keys
  rw [List.map_map, List.mem_map]
  constructor
  · rintro ⟨x, hx, he⟩
    rcases List.mem_range'_1.mp hx with ⟨h1, h2⟩
    exact ⟨x, h1, h2, he.symm⟩
  · rintro ⟨j, h1, h2, he⟩
    exact ⟨j, List.mem_range'_1.mpr ⟨h1, h2⟩, he.symm⟩

theorem rlookup_ctBlock_none {w : ℕ → PyVal} {a b : ℕ} {k : String}
    (h : pyStartswith k "controlTime" = false) :
    rlookup k (ctBlock w a b) = Option.none := by
  rw [rlookup_eq_none]
  intro hmem
  rcases mem_keys_ctBlock.mp hmem with ⟨j, _, _, he⟩
  exact ne_ctKey_of_not_startswith h he

theorem readonly_not_ct : ∀ k ∈ readonlyFields, pyStartswith k "controlTime" = false := by
  decide

theorem nodup_keys_copyWritable {cached : Rec} (hnd : (keys cached).Nodup) :
    (keys (copyWritable cached)).Nodup :=
  List.Nodup.sublist (List.Sublist.map Prod.fst (List.filter_sublist cached)) hnd

/-- C2 (confirmed): the payload built by `push_schedule` always holds the
keys `controlTime1 .. controlTime16`; position `i` holds the encoding of
input slot `i` when `i ≤ min(len(slots), 16)` and the disabled-slot string
otherwise, and every controlTime key present in the payload is one of the
sixteen positions (none beyond 16 is written). -/
theorem push_schedule_sixteen_slot_fields (cached : Rec) (dev : String)
    (slots : List InSlot) :
    (∀ i, 1 ≤ i → i ≤ 16 →
      rlookup (ctKey i) (buildPayload cached dev slots) =
        some (PyVal.pstr (if i ≤ (slots.take 16).length then
          slotToStr ((slots.take 16).getD (i - 1) inDefault) else emptySlot)))
    ∧ (∀ k, k ∈ keys (buildPayload cached dev slots) →
        pyStartswith k "controlTime" = true → ∃ j, 1 ≤ j ∧ j ≤ 16 ∧ k = ctKey j) := by
  constructor
  · intro i h1 h16
    rw [buildPayload_eq]
    rw [rlookup_append_right (fun hmem => by
      have hh := keys_base_not_ct hmem
      rw [pyStartswith_ctKey] at hh
      simp at hh)]
    rw [rlookup_ctBlock (ctVal slots) 16 1 i h1 (by omega) (by omega)]
    rfl
  · intro k hk hct
    rw [buildPayload_eq, keys_append] at hk
    rcases List.mem_append.mp hk with hm | hm
    · rw [keys_base_not_ct hm] at hct
      simp at hct
    · rcases mem_keys_ctBlock.mp hm with ⟨j, hj1, hj2, he⟩
      exact ⟨j, hj1, by omega, he⟩

/-- C2 witness: with an empty slot list, position 3 is filled with the
disabled-slot string. -/
theorem push_schedule_sixteen_slot_fields_witness :
    rlookup (ctKey 3) (buildPayload [("foo", PyVal.pint 7)] "dev" []) =
      some (PyVal.pstr emptySlot) := by
  have h := (push_schedule_sixteen_slot_fields [("foo", PyVal.pint 7)] "dev" []).1 3
    (by decide) (by decide)
  simpa using h

/-- C3 (code bug): the literal `_EMPTY_SLOT` the code writes into unused
controlTime positions has `0` in field 6, contradicting both the
documented format (field 6 "always 6", as `_slot_to_str` writes) and the
specified disabled-slot literal `0,00:00,00:00,0,0,6,0,0,0,100,10`.
With no slots, `controlTime1` receives the field-6-zero string. -/
theorem empty_slot_field6_is_zero :
    rlookup (ctKey 1) (buildPayload [] "dev" []) =
      some (PyVal.pstr "0,00:00,00:00,0,0,0,0,0,0,100,10")
    ∧ "0,00:00,00:00,0,0,0,0,0,0,100,10" ≠ "0,00:00,00:00,0,0,6,0,0,0,100,10" := by
  constructor
  · decide
  · decide

/-- C7 (confirmed): the merged payload preserves every cached field that is
not read-only, not null and not a controlTime field (other than
`energyMode`, forced to `2`, and `datalogSn`, forced to the device id);
every read-only field is absent, and every null non-slot field (other than
the two forced keys) is absent. -/
theorem push_schedule_preserves_writable_fields (cached : Rec) (dev : String)
    (slots : List InSlot) (hnd : (keys cached).Nodup) :
    (∀ k v, (k, v) ∈ cached → k ∉ readonlyFields → v ≠ PyVal.pnone →
      pyStartswith k "controlTime" = false → k ≠ "energyMode" → k ≠ "datalogSn" →
      rlookup k (buildPayload cached dev slots) = some v)
    ∧ rlookup "energyMode" (buildPayload cached dev slots) = some (PyVal.pint 2)
    ∧ rlookup "datalogSn" (buildPayload cached dev slots) = some (PyVal.pstr dev)
    ∧ (∀ k, k ∈ readonlyFields → rlookup k (buildPayload cached dev slots) = Option.none)
    ∧ (∀ k, (k, PyVal.pnone) ∈ cached → pyStartswith k "controlTime" = false →
        k ≠ "energyMode" → k ≠ "datalogSn" →
        rlookup k (buildPayload cached dev slots) = Option.none) := by
  refine ⟨?_, ?_, ?_, ?_, ?_⟩
  · intro k v hmem hro hnn hct heM hdS
    rw [buildPayload_eq]
    apply rlookup_append_left
    unfold basePayload
    rw [rlookup_dictSet_ne hdS, rlookup_dictSet_ne heM]
    exact rlookup_of_mem (nodup_keys_copyWritable hnd)
      (mem_copyWritable.mpr ⟨hmem, hro, hnn, hct⟩)
  · rw [buildPayload_eq]
    apply rlookup_append_left
    unfold basePayload
    rw [rlookup_dictSet_ne (by decide)]
    exact rlookup_dictSet_self
  · rw [buildPayload_eq]
    apply rlookup_append_left
    unfold basePayload
    exact rlookup_dictSet_self
  · intro k hro
    rw [buildPayload_eq]
    rw [rlookup_append_right (fun hmem => by
      unfold basePayload at hmem
      rcases mem_keys_dictSet.mp hmem with h1 | h1
      · rcases mem_keys_dictSet.mp h1 with h2 | h2
        · rcases List.mem_map.mp h2 with ⟨kv, hkv, hfst⟩
          exact (mem_copyWritable.mp hkv).2.1 (hfst ▸ hro)
        · rw [h2] at hro
          exact absurd hro (by decide)
      · rw [h1] at hro
        exact absurd hro (by decide))]
    exact rlookup_ctBlock_none (readonly_not_ct k hro)
  · intro k hmem hct heM hdS
    rw [buildPayload_eq]
    rw [rlookup_append_right (fun hk => by
      unfold basePayload at hk
      rcases mem_keys_dictSet.mp hk with h1 | h1
      · rcases mem_keys_dictSet.mp h1 with h2 | h2
        · rcases List.mem_map.mp h2 with ⟨kv, hkv, hfst⟩
          rcases mem_copyWritable.mp hkv with ⟨hkvc, _, hkvn, _⟩
          have hv : kv.2 = PyVal.pnone :=
            nodup_val_unique hnd (hfst ▸ (Prod.mk.eta ▸ hkvc)) hmem
          exact hkvn hv
        · exact heM h2
      · exact hdS h1)]
    exact rlookup_ctBlock_none hct

/-- C7 witness: a concrete cached record with a writable field, a
read-only field and a null field. -/
theorem push_schedule_preserves_writable_fields_witness :
    rlookup "foo" (buildPayload
      [("foo", PyVal.pint 7), ("id", PyVal.pint 1), ("bar", PyVal.pnone)] "dev" []) =
      some (PyVal.pint 7) :=
  (push_schedule_preserves_writable_fields
    [("foo", PyVal.pint 7), ("id", PyVal.pint 1), ("bar", PyVal.pnone)] "dev" []
    (by decide)).1 "foo" (PyVal.pint 7) (by decide) (by decide) (by decide)
    (by decide) (by decide) (by decide)

/-- C8 (confirmed): with a device id set, `push_schedule(slots, dry_run=True)`
returns result `0` together with the fully merged would-be payload, issues
no write to the device interface, and leaves the hub state — in particular
the cached device configuration — unchanged. -/
theorem push_schedule_dry_run (hub : Hub) (api : Rec → ℤ) (l : List InSlot)
    (dev : String) (hdev : hub.main_control_device_id = some dev) :
    pushSchedule hub api (SlotsArg.ofList l) true =
      { result := 0, dryRunFlag := true,
        payload := some (buildPayload hub.aiObj dev l), hub := hub, writes := [] } := by
  unfold pushSchedule
  rw [hdev]
  rfl

/-- C8 witness: a concrete dry run. -/
theorem push_schedule_dry_run_witness :
    pushSchedule ⟨some "dev", []⟩ (fun _ => 0) (SlotsArg.ofList []) true =
      { result := 0, dryRunFlag := true, payload := some (buildPayload [] "dev" []),
        hub := ⟨some "dev", []⟩, writes := [] } :=
  push_schedule_dry_run ⟨some "dev", []⟩ (fun _ => 0) [] "dev" rfl

/-- C10 (confirmed): a dict-shaped `slots` argument (as delivered by the
Home Assistant service-call YAML parser) is treated exactly as the list of
its values, in order. -/
theorem push_schedule_dict_as_values (hub : Hub) (api : Rec → ℤ)
    (d : List (String × InSlot)) (dr : Bool) :
    pushSchedule hub api (SlotsArg.ofDict d) dr =
      pushSchedule hub api (SlotsArg.ofList (d.map Prod.snd)) dr := rfl

/-! ## Optimizer lemmas -/

theorem mem_insertQ {a q : ℕ × ℕ} {s : List (ℕ × ℕ)} :
    a ∈ insertQ q s ↔ a = q ∨ a ∈ s := by
  induction s with
  | nil => simp [insertQ]
  | cons x xs ih =>
      unfold insertQ
      by_cases h1 : qLt q x
      · rw [if_pos h1]
        simp only [List.mem_cons]
      · rw [if_neg h1]
        by_cases h2 : q = x
        · subst h2
          rw [if_pos rfl]
          simp only [List.mem_cons]
          tauto
        · rw [if_neg h2]
          simp only [List.mem_cons, ih]
          tauto

theorem mem_dedupSort {a : ℕ × ℕ} {l : List (ℕ × ℕ)} : a ∈ dedupSort l ↔ a ∈ l := by
  induction l with
  | nil => simp [dedupSort]
  | cons x xs ih =>
      show a ∈ insertQ x (dedupSort xs) ↔ _
      rw [mem_insertQ, ih]
      simp

theorem insertQ_cons {q x : ℕ × ℕ} {xs : List (ℕ × ℕ)} :
    insertQ q (x :: xs) =
      if qLt q x then q :: x :: xs else if q = x then x :: xs else x :: insertQ q xs := rfl

theorem qLt_of_not_of_ne {a b : ℕ × ℕ} (h1 : ¬ qLt a b) (h2 : a ≠ b) : qLt b a := by
  have h2' : ¬ (a.1 = b.1 ∧ a.2 = b.2) := fun hh => h2 (Prod.ext hh.1 hh.2)
  unfold qLt at h1 ⊢
  omega

theorem chain'_insertQ {q : ℕ × ℕ} {s : List (ℕ × ℕ)} (h : List.Chain' qLt s) :
    List.Chain' qLt (insertQ q s) := by
  induction s with
  | nil => simp [insertQ]
  | cons x xs ih =>
      unfold insertQ
      by_cases h1 : qLt q x
      · rw [if_pos h1]
        exact List.chain'_cons.mpr ⟨h1, h⟩
      · rw [if_neg h1]
        by_cases h2 : q = x
        · rw [if_pos h2]
          exact h
        · rw [if_neg h2]
          have hxs : List.Chain' qLt xs := h.tail
          have hins := ih hxs
          cases xs with
          | nil =>
              show List.Chain' qLt [x, q]
              exact List.chain'_cons.mpr ⟨qLt_of_not_of_ne h1 h2, List.chain'_singleton q⟩
          | cons y ys =>
              show List.Chain' qLt (x :: insertQ q (y :: ys))
              unfold insertQ
              by_cases h3 : qLt q y
              · rw [if_pos h3]
                refine List.chain'_cons.mpr ⟨qLt_of_not_of_ne h1 h2, ?_⟩
                have he : insertQ q (y :: ys) = q :: y :: ys := by
                  unfold insertQ
                  rw [if_pos h3]
                exact he ▸ hins
              · rw [if_neg h3]
                by_cases h4 : q = y
                · rw [if_pos h4]
                  exact h
                · rw [if_neg h4]
                  refine List.chain'_cons.mpr ⟨(List.chain'_cons.mp h).1, ?_⟩
                  have he : insertQ q (y :: ys) = y :: insertQ q ys := by
                    rw [insertQ_cons, if_neg h3, if_neg h4]
                  exact he ▸ hins

theorem chain'_dedupSort (l : List (ℕ × ℕ)) : List.Chain' qLt (dedupSort l) := by
  induction l with
  | nil => simp [dedupSort]
  | cons x xs ih => exact chain'_insertQ ih

theorem groupGo_flatten : ∀ (rest current : List (ℕ × ℕ)),
    (groupGo current rest).flatten = current ++ rest
  | [], current => by simp [groupGo]
  | q :: rest, current => by
      unfold groupGo
      by_cases h : q = nextQuarter (current.getLastD (0, 0)).1 (current.getLastD (0, 0)).2
      · rw [if_pos h, groupGo_flatten rest (current ++ [q])]
        simp
      · rw [if_neg h]
        rw [List.flatten_cons, groupGo_flatten rest [q]]
        simp

theorem groupConsecutive_flatten (l : List (ℕ × ℕ)) :
    (groupConsecutive l).flatten = l := by
  cases l with
  | nil => rfl
  | cons q rest =>
      show (groupGo [q] rest).flatten = q :: rest
      rw [groupGo_flatten]
      rfl

theorem chain'_of_mem_groupConsecutive {l g : List (ℕ × ℕ)}
    (hc : List.Chain' qLt l) (hg : g ∈ groupConsecutive l) : List.Chain' qLt g := by
  refine List.Chain'.infix ?_ (List.infix_of_mem_flatten hg)
  rwa [groupConsecutive_flatten l]

theorem groupGo_ne_nil : ∀ (rest current : List (ℕ × ℕ)), groupGo current rest ≠ []
  | [], current => by simp [groupGo]
  | q :: rest, current => by
      unfold groupGo
      by_cases h : q = nextQuarter (current.getLastD (0, 0)).1 (current.getLastD (0, 0)).2
      · rw [if_pos h]
        exact groupGo_ne_nil rest (current ++ [q])
      · rw [if_neg h]
        simp

theorem groupConsecutive_ne_nil {l : List (ℕ × ℕ)} (h : l ≠ []) :
    groupConsecutive l ≠ [] := by
  cases l with
  | nil => exact absurd rfl h
  | cons q rest => exact groupGo_ne_nil rest [q]

theorem mem_appendRuns {cap : ℕ} {mk : List (ℕ × ℕ) → OptSlot} :
    ∀ {gs : List (List (ℕ × ℕ))} {slots : List OptSlot} {s : OptSlot},
      s ∈ appendRuns cap mk gs slots → s ∈ slots ∨ ∃ g ∈ gs, s = mk g := by
  intro gs
  induction gs with
  | nil => intro slots s hs; exact Or.inl hs
  | cons g gs ih =>
      intro slots s hs
      unfold appendRuns at hs
      by_cases hc : cap ≤ slots.length
      · rw [if_pos hc] at hs
        exact Or.inl hs
      · rw [if_neg hc] at hs
        rcases ih hs with hm | ⟨g', hg', he⟩
        · rcases List.mem_append.mp hm with hm1 | hm1
          · exact Or.inl hm1
          · exact Or.inr ⟨g, List.mem_cons_self g gs, List.mem_singleton.mp hm1⟩
        · exact Or.inr ⟨g', List.mem_cons_of_mem g hg', he⟩

theorem length_appendRuns {cap : ℕ} {mk : List (ℕ × ℕ) → OptSlot} :
    ∀ (gs : List (List (ℕ × ℕ))) (slots : List OptSlot), slots.length ≤ cap →
      (appendRuns cap mk gs slots).length ≤ cap := by
  intro gs
  induction gs with
  | nil => intro slots h; exact h
  | cons g gs ih =>
      intro slots h
      unfold appendRuns
      by_cases hc : cap ≤ slots.length
      · rw [if_pos hc]
        exact h
      · rw [if_neg hc]
        exact ih (slots ++ [mk g]) (by simp; omega)

theorem mem_appendEvRuns {I : OptInputs} :
    ∀ {gs : List (List (ℕ × ℕ))} {slots : List OptSlot} {s : OptSlot},
      s ∈ appendEvRuns I gs slots → s ∈ slots ∨ ∃ g ∈ gs, s = evSlot I g := by
  intro gs
  induction gs with
  | nil => intro slots s hs; exact Or.inl hs
  | cons g gs ih =>
      intro slots s hs
      unfold appendEvRuns at hs
      by_cases hc : 15 ≤ slots.length
      · rw [if_pos hc] at hs
        exact Or.inl hs
      · rw [if_neg hc] at hs
        by_cases hskip : slots.any
            (fun s => decide (s.power_w < 0) && quarterInSlot (g.headD (0, 0)) s) = true
        · rw [if_pos hskip] at hs
          rcases ih hs with hm | ⟨g', hg', he⟩
          · exact Or.inl hm
          · exact Or.inr ⟨g', List.mem_cons_of_mem g hg', he⟩
        · rw [if_neg hskip] at hs
          rcases ih hs with hm | ⟨g', hg', he⟩
          · rcases List.mem_append.mp hm with hm1 | hm1
            · exact Or.inl hm1
            · exact Or.inr ⟨g, List.mem_cons_self g gs, List.mem_singleton.mp hm1⟩
          · exact Or.inr ⟨g', List.mem_cons_of_mem g hg', he⟩

theorem length_appendEvRuns {I : OptInputs} :
    ∀ (gs : List (List (ℕ × ℕ))) (slots : List OptSlot), slots.length ≤ 15 →
      (appendEvRuns I gs slots).length ≤ 15 := by
  intro gs
  induction gs with
  | nil => intro slots h; exact h
  | cons g gs ih =>
      intro slots h
      unfold appendEvRuns
      by_cases hc : 15 ≤ slots.length
      · rw [if_pos hc]
        exact h
      · rw [if_neg hc]
        by_cases hskip : slots.any
            (fun s => decide (s.power_w < 0) && quarterInSlot (g.headD (0, 0)) s) = true
        · rw [if_pos hskip]
          exact ih slots h
        · rw [if_neg hskip]
          exact ih (slots ++ [evSlot I g]) (by simp; omega)

theorem appendEvRuns_ne_nil {I : OptInputs} :
    ∀ (gs : List (List (ℕ × ℕ))) (slots : List OptSlot), slots ≠ [] →
      appendEvRuns I gs slots ≠ [] := by
  intro gs
  induction gs with
  | nil => intro slots h; exact h
  | cons g gs ih =>
      intro slots h
      unfold appendEvRuns
      by_cases hc : 15 ≤ slots.length
      · rw [if_pos hc]
        exact h
      · rw [if_neg hc]
        by_cases hskip : slots.any
            (fun s => decide (s.power_w < 0) && quarterInSlot (g.headD (0, 0)) s) = true
        · rw [if_pos hskip]
          exact ih slots h
        · rw [if_neg hskip]
          exact ih (slots ++ [evSlot I g]) (by simp)

theorem pyInt_nonneg {q : ℚ} (h : 0 ≤ q) : 0 ≤ pyInt q := by
  unfold pyInt
  rw [if_pos h]
  exact Int.floor_nonneg.mpr h

theorem pyInt_le_cast {q : ℚ} {n : ℤ} (h0 : 0 ≤ q) (h : q ≤ (n : ℚ)) : pyInt q ≤ n := by
  unfold pyInt
  rw [if_pos h0]
  calc ⌊q⌋ ≤ ⌊(n : ℚ)⌋ := Int.floor_le_floor h
    _ = n := Int.floor_intCast n

theorem pyInt_mono {a b : ℚ} (h0 : 0 ≤ a) (h : a ≤ b) : pyInt a ≤ pyInt b := by
  unfold pyInt
  rw [if_pos h0, if_pos (le_trans h0 h)]
  exact Int.floor_le_floor h

theorem fdiv_two_nonneg {a : ℤ} (h : 0 ≤ a) : 0 ≤ a.fdiv 2 := by
  rw [Int.fdiv_eq_ediv _ (by norm_num)]
  exact Int.ediv_nonneg h (by norm_num)

theorem fdiv_two_le {a : ℤ} (h : 0 ≤ a) : a.fdiv 2 ≤ a := by
  rw [Int.fdiv_eq_ediv _ (by norm_num)]
  exact Int.ediv_le_self 2 h

theorem insertQ_ne_nil (q : ℕ × ℕ) (s : List (ℕ × ℕ)) : insertQ q s ≠ [] := by
  cases s with
  | nil => simp [insertQ]
  | cons x xs =>
      rw [insertQ_cons]
      by_cases h1 : qLt q x
      · rw [if_pos h1]
        simp
      · rw [if_neg h1]
        by_cases h2 : q = x
        · rw [if_pos h2]
          simp
        · rw [if_neg h2]
          simp

theorem dedupSort_ne_nil {l : List (ℕ × ℕ)} (h : l ≠ []) : dedupSort l ≠ [] := by
  cases l with
  | nil => exact absurd rfl h
  | cons x xs => exact insertQ_ne_nil x (dedupSort xs)

theorem length_insertByPrice (x : ℕ × ℕ × ℚ) (l : List (ℕ × ℕ × ℚ)) :
    (insertByPrice x l).length = l.length + 1 := by
  induction l with
  | nil => rfl
  | cons y ys ih =>
      unfold insertByPrice
      by_cases h : y.2.2 < x.2.2
      · rw [if_pos h]
        simp [ih]
      · rw [if_neg h]
        simp

theorem length_sortByPrice (l : List (ℕ × ℕ × ℚ)) :
    (sortByPrice l).length = l.length := by
  induction l with
  | nil => rfl
  | cons x xs ih =>
      show (insertByPrice x (sortByPrice xs)).length = xs.length + 1
      rw [length_insertByPrice, ih]

theorem nightQuarters_ne_nil (I : OptInputs)
    (hnight : ∃ x ∈ I.prices, 22 ≤ x.1 ∨ x.1 < 6) : nightQuarters I ≠ [] := by
  unfold nightQuarters
  apply dedupSort_ne_nil
  rcases hnight with ⟨x, hx, hcond⟩
  have hfmem : x ∈ I.prices.filter (fun x => decide (22 ≤ x.1) || decide (x.1 < 6)) :=
    List.mem_filter.mpr ⟨hx, by rcases hcond with h | h <;> simp [h]⟩
  have hflen : 1 ≤ (I.prices.filter (fun x => decide (22 ≤ x.1) || decide (x.1 < 6))).length :=
    List.length_pos.mpr (List.ne_nil_of_mem hfmem)
  intro hnil
  rw [List.map_eq_nil_iff] at hnil
  have hlen := congrArg List.length hnil
  rw [List.length_take, length_sortByPrice, List.length_nil] at hlen
  omega

theorem appendEvRuns_nil_start (I : OptInputs) (g : List (ℕ × ℕ))
    (gs : List (List (ℕ × ℕ))) :
    appendEvRuns I (g :: gs) [] = appendEvRuns I gs [evSlot I g] := by
  simp only [appendEvRuns]
  rw [if_neg (by simp), if_neg (by simp), List.nil_append]

theorem classifyQuarters_zelfverbruik_low (I : OptInputs) (hm : I.mode = "Zelfverbruik")
    (hsoc : I.current_soc ≤ effectiveReserve I) : classifyQuarters I = ([], []) := by
  unfold classifyQuarters
  have hstep : ∀ acc x, classifyStep I acc x = acc := by
    intro acc x
    unfold classifyStep
    rw [hm]
    rw [if_neg (by decide : ¬ ("Zelfverbruik" : String) = "Prijs-arbitrage")]
    rw [if_pos rfl]
    rw [if_neg (fun hand => absurd hand.2 (by linarith))]
  have hfold : ∀ (ps : List (ℕ × ℕ × ℚ)) (acc : List (ℕ × ℕ) × List (ℕ × ℕ)),
      ps.foldl (classifyStep I) acc = acc := by
    intro ps
    induction ps with
    | nil => intro acc; rfl
    | cons x rest ih =>
        intro acc
        rw [List.foldl_cons, hstep acc x]
        exact ih acc
  exact hfold I.prices ([], [])

theorem chargeDischargeStage_of_classify_empty (I : OptInputs)
    (h : classifyQuarters I = ([], [])) : chargeDischargeStage I = [] := by
  unfold chargeDischargeStage chargeQuarters dischargeQuarters
  rw [h]
  rfl

/-! ## Claim theorems for the optimizer -/

/-- C4 (confirmed): the charge/discharge loops stop appending once 14
slots exist, the EV overnight loop stops at 15, so `optimize` never
returns more than 16 slots. -/
theorem optimize_slot_cap (I : OptInputs) :
    (chargeDischargeStage I).length ≤ 14 ∧ (optimize I).length ≤ 15 ∧
      (optimize I).length ≤ 16 := by
  have hstage : (chargeDischargeStage I).length ≤ 14 :=
    length_appendRuns _ _ (length_appendRuns _ [] (by simp))
  have hopt : (optimize I).length ≤ 15 := by
    unfold optimize
    split
    · simp
    · split
      · exact length_appendEvRuns _ _ (by omega)
      · omega
  exact ⟨hstage, hopt, by omega⟩

/-- C6 (confirmed): after classification, the final charge set is exactly
the set of buckets classified as charge, the final discharge set is the
classified discharge buckets minus the charge buckets, and the two final
sets are disjoint — collisions are kept in charge, never the reverse. -/
theorem classification_disjoint (I : OptInputs) (q : ℕ × ℕ) :
    (q ∈ dischargeQuarters I → q ∉ chargeQuarters I) ∧
      (q ∈ chargeQuarters I ↔ q ∈ (classifyQuarters I).1) ∧
      (q ∈ dischargeQuarters I ↔
        q ∈ (classifyQuarters I).2 ∧ q ∉ (classifyQuarters I).1) := by
  have hc : q ∈ chargeQuarters I ↔ q ∈ (classifyQuarters I).1 := mem_dedupSort
  have hd : q ∈ dischargeQuarters I ↔
      q ∈ (classifyQuarters I).2 ∧ q ∉ (classifyQuarters I).1 := by
    unfold dischargeQuarters
    rw [mem_dedupSort, List.mem_filter]
    simp only [decide_eq_true_eq]
    rw [hc]
  exact ⟨fun hq hq' => (hd.mp hq).2 (hc.mp hq'), hc, hd⟩

/-- Demonstration input for the classification claims: an arbitrage curve
with one cheap and one expensive bucket. -/
def demoInput : OptInputs :=
  { mode := "Prijs-arbitrage", active := "on", reserve_soc := 15, ev_reserve_soc := 20,
    high_price := 1/4, low_price := 2/25, current_soc := 50, ev_charging := false,
    max_charge_w := 2400, max_discharge_w := 2400,
    prices := [(10, 0, 1/20), (18, 0, 3/10)], solar := fun _ => 0,
    consumption := fun _ => 1/2 }

/-- C6 witness: the disjointness conjunction at a concrete input and bucket. -/
theorem classification_disjoint_witness :
    ((10, 0) ∈ dischargeQuarters demoInput → (10, 0) ∉ chargeQuarters demoInput) ∧
      ((10, 0) ∈ chargeQuarters demoInput ↔ (10, 0) ∈ (classifyQuarters demoInput).1) ∧
      ((10, 0) ∈ dischargeQuarters demoInput ↔
        (10, 0) ∈ (classifyQuarters demoInput).2 ∧
          (10, 0) ∉ (classifyQuarters demoInput).1) :=
  classification_disjoint demoInput (10, 0)

/-- C1 (corrected): with nonnegative reserve inputs, effective reserve at
most 95 and nonnegative device power limits, every slot `optimize`
produces satisfies `0 ≤ min_soc ≤ max_soc ≤ 100`, and its power respects
the directional limit (`|power| ≤ max_charge_w` for charge slots,
`|power| ≤ max_discharge_w` for discharge slots). -/
theorem optimize_slot_invariants (I : OptInputs)
    (hr : 0 ≤ I.reserve_soc) (he : 0 ≤ I.ev_reserve_soc)
    (heff : effectiveReserve I ≤ 95)
    (hcw : 0 ≤ I.max_charge_w) (hdw : 0 ≤ I.max_discharge_w) :
    ∀ s ∈ optimize I,
      0 ≤ s.min_soc ∧ s.min_soc ≤ s.max_soc ∧ s.max_soc ≤ 100 ∧
      (s.power_w < 0 → -s.power_w ≤ I.max_charge_w) ∧
      (0 < s.power_w → s.power_w ≤ I.max_discharge_w) := by
  have heff0 : 0 ≤ effectiveReserve I := by
    unfold effectiveReserve
    split <;> linarith
  have hstage : ∀ t ∈ chargeDischargeStage I,
      0 ≤ t.min_soc ∧ t.min_soc ≤ t.max_soc ∧ t.max_soc ≤ 100 ∧
      (t.power_w < 0 → -t.power_w ≤ I.max_charge_w) ∧
      (0 < t.power_w → t.power_w ≤ I.max_discharge_w) := by
    intro t ht
    rcases mem_appendRuns ht with ht1 | ⟨g, _, rfl⟩
    · rcases mem_appendRuns ht1 with ht2 | ⟨g, _, rfl⟩
      · simp at ht2
      · refine ⟨pyInt_nonneg heff0, ?_, (by norm_num : (95 : ℤ) ≤ 100), ?_, ?_⟩
        · exact @pyInt_le_cast (effectiveReserve I) 95 heff0 (by exact_mod_cast heff)
        · intro _
          show -(-I.max_charge_w) ≤ I.max_charge_w
          omega
        · intro hpos
          exfalso
          have h2 : (0 : ℤ) < -I.max_charge_w := hpos
          omega
    · refine ⟨pyInt_nonneg heff0, ?_, (by norm_num : (100 : ℤ) ≤ 100), ?_, ?_⟩
      · exact @pyInt_le_cast (effectiveReserve I) 100 heff0
          (by exact_mod_cast (le_trans heff (by norm_num : (95 : ℚ) ≤ 100)))
      · intro hneg
        exfalso
        have h2 : I.max_discharge_w < 0 := hneg
        omega
      · intro _
        show I.max_discharge_w ≤ I.max_discharge_w
        exact le_rfl
  intro s hs
  unfold optimize at hs
  by_cases hgate : I.active ≠ "on" ∨ I.mode = "Uit"
  · rw [if_pos hgate] at hs
    simp at hs
  · rw [if_neg hgate] at hs
    by_cases hev : (I.ev_charging : Prop) ∧ (chargeDischargeStage I).length < 15
    · rw [if_pos hev] at hs
      rcases mem_appendEvRuns hs with hm1 | ⟨g, _, rfl⟩
      · exact hstage s hm1
      · have heffev : I.reserve_soc + I.ev_reserve_soc ≤ 95 := by
          unfold effectiveReserve at heff
          rw [if_pos hev.1] at heff
          linarith
        refine ⟨pyInt_nonneg hr, ?_, ?_, ?_, ?_⟩
        · exact pyInt_mono hr (le_min (by linarith) (by linarith))
        · show pyInt (min 95 (I.reserve_soc + I.ev_reserve_soc + 15)) ≤ 100
          refine @pyInt_le_cast (min 95 (I.reserve_soc + I.ev_reserve_soc + 15)) 100
            (le_min (by norm_num) (by linarith)) ?_
          calc min 95 (I.reserve_soc + I.ev_reserve_soc + 15) ≤ 95 := min_le_left _ _
            _ ≤ ((100 : ℤ) : ℚ) := by norm_num
        · intro _
          show -(-(I.max_charge_w.fdiv 2)) ≤ I.max_charge_w
          have h1 := fdiv_two_le hcw
          omega
        · intro hpos
          exfalso
          have h1 := fdiv_two_nonneg hcw
          have : (0 : ℤ) < -(I.max_charge_w.fdiv 2) := hpos
          omega
    · rw [if_neg hev] at hs
      exact hstage s hs

/-- Out-of-range reserve input for the C1 counterexample: the arbitrage
mode classifies the single cheap bucket as a charge run. -/
def highReserveInput : OptInputs :=
  { mode := "Prijs-arbitrage", active := "on", reserve_soc := 96, ev_reserve_soc := 0,
    high_price := 1/4, low_price := 2/25, current_soc := 50, ev_charging := false,
    max_charge_w := 2400, max_discharge_w := 2400,
    prices := [(10, 0, 1/20)], solar := fun _ => 0, consumption := fun _ => 1/2 }

/-- C1 counterexample: with `reserve_soc = 96` (a value the code reads
unvalidated from `input_number.battery_reserve_soc`), the produced charge
slot has `min_soc = 96 > 95 = max_soc`, so the invariant does not hold for
every reserve value. -/
theorem optimize_slot_invariants_counterexample :
    ∃ s ∈ optimize highReserveInput, ¬ s.min_soc ≤ s.max_soc := by
  have hopt : optimize highReserveInput = [⟨true, "10:00", "10:15", -2400, 95, 96⟩] := by
    norm_num [optimize, highReserveInput, chargeDischargeStage, chargeQuarters,
      dischargeQuarters, classifyQuarters, classifyStep, effectiveReserve, dedupSort,
      insertQ, qLt, groupConsecutive, groupGo, appendRuns, chargeSlot, dischargeSlot,
      nextQuarter, quarterToStr, pad2, pyInt]
    rfl
  rw [hopt]
  exact ⟨⟨true, "10:00", "10:15", -2400, 95, 96⟩, List.mem_singleton_self _, by decide⟩

/-- C1 witness: in-range reserve values at the same curve satisfy every
hypothesis of the corrected invariant theorem. -/
theorem optimize_slot_invariants_witness :
    (0 : ℚ) ≤ demoInput.reserve_soc ∧ (0 : ℚ) ≤ demoInput.ev_reserve_soc ∧
      effectiveReserve demoInput ≤ 95 ∧ (0 : ℤ) ≤ demoInput.max_charge_w ∧
      (0 : ℤ) ≤ demoInput.max_discharge_w ∧
      ∀ s ∈ optimize demoInput,
        0 ≤ s.min_soc ∧ s.min_soc ≤ s.max_soc ∧ s.max_soc ≤ 100 ∧
        (s.power_w < 0 → -s.power_w ≤ demoInput.max_charge_w) ∧
        (0 < s.power_w → s.power_w ≤ demoInput.max_discharge_w) :=
  ⟨by norm_num [demoInput], by norm_num [demoInput],
    by norm_num [effectiveReserve, demoInput], by norm_num [demoInput],
    by norm_num [demoInput],
    optimize_slot_invariants demoInput (by norm_num [demoInput])
      (by norm_num [demoInput]) (by norm_num [effectiveReserve, demoInput])
      (by norm_num [demoInput]) (by norm_num [demoInput])⟩

/-- C5 (corrected): the classified bucket sets are sorted ascending by raw
(hour, minute) time-of-day — not by position in the resolver's 24h window —
and every compiled run is strictly increasing in raw time-of-day, so a run
of consecutive buckets spanning midnight is split at midnight instead of
being grouped as one slot. -/
theorem optimizer_sorts_by_raw_time (I : OptInputs) (g : List (ℕ × ℕ))
    (hg : g ∈ groupConsecutive (chargeQuarters I) ∨
      g ∈ groupConsecutive (dischargeQuarters I)) :
    List.Chain' qLt (chargeQuarters I) ∧ List.Chain' qLt (dischargeQuarters I) ∧
      List.Chain' qLt g := by
  refine ⟨chain'_dedupSort _, chain'_dedupSort _, ?_⟩
  rcases hg with hg | hg
  · exact chain'_of_mem_groupConsecutive (chain'_dedupSort _) hg
  · exact chain'_of_mem_groupConsecutive (chain'_dedupSort _) hg

/-- A price curve starting at 23:45: its two cheap buckets 23:45 and 00:00
are consecutive in the resolver window but not in raw time-of-day. -/
def midnightInput : OptInputs :=
  { mode := "Prijs-arbitrage", active := "on", reserve_soc := 15, ev_reserve_soc := 20,
    high_price := 1/4, low_price := 2/25, current_soc := 50, ev_charging := false,
    max_charge_w := 2400, max_discharge_w := 2400,
    prices := [(23, 45, 1/20), (0, 0, 1/20)], solar := fun _ => 0,
    consumption := fun _ => 1/2 }

/-- C5 counterexample: the charge buckets come out sorted as
`[(0,0), (23,45)]` — raw time-of-day order, not the window order
`[(23,45), (0,0)]` — and the midnight-spanning run of two consecutive
window buckets is compiled into two slots, not one. -/
theorem optimizer_sorts_by_raw_time_counterexample :
    chargeQuarters midnightInput = [(0, 0), (23, 45)] ∧
      chargeQuarters midnightInput ≠ [(23, 45), (0, 0)] ∧
      (optimize midnightInput).length = 2 := by
  have hq : chargeQuarters midnightInput = [(0, 0), (23, 45)] := by
    norm_num [chargeQuarters, classifyQuarters, classifyStep, midnightInput,
      effectiveReserve, dedupSort, insertQ, qLt]
  refine ⟨hq, by rw [hq]; decide, ?_⟩
  norm_num [optimize, midnightInput, chargeDischargeStage, chargeQuarters,
    dischargeQuarters, classifyQuarters, classifyStep, effectiveReserve, dedupSort,
    insertQ, qLt, groupConsecutive, groupGo, appendRuns, chargeSlot, dischargeSlot,
    nextQuarter, quarterToStr, pad2, pyInt]
  rfl

/-- C5 witness: a concrete compiled charge run at the midnight-splitting
input, with both bucket lists strictly increasing in raw time-of-day. -/
theorem optimizer_sorts_by_raw_time_witness :
    List.Chain' qLt (chargeQuarters midnightInput) ∧
      List.Chain' qLt (dischargeQuarters midnightInput) ∧
      List.Chain' qLt [((0 : ℕ), (0 : ℕ))] :=
  optimizer_sorts_by_raw_time midnightInput [(0, 0)] (Or.inl (by
    norm_num [chargeQuarters, classifyQuarters, classifyStep, midnightInput,
      effectiveReserve, dedupSort, insertQ, qLt, groupConsecutive, groupGo,
      nextQuarter]))

/-- C9 (confirmed): in SelfConsumption ("Zelfverbruik") mode with the EV
charging and the battery SOC at or below the effective reserve, the SOC
gate blocks every discharge bucket, so no positive-power slot is produced;
yet whenever the curve has a bucket in the 22:00–06:00 window, at least one
EV overnight top-up charge slot is produced (and every produced slot is
such a top-up slot). -/
theorem optimize_ev_topup (I : OptInputs)
    (hm : I.mode = "Zelfverbruik") (ha : I.active = "on")
    (hev : I.ev_charging = true) (hsoc : I.current_soc ≤ effectiveReserve I)
    (hcw : 0 ≤ I.max_charge_w)
    (hnight : ∃ x ∈ I.prices, 22 ≤ x.1 ∨ x.1 < 6) :
    optimize I ≠ [] ∧
      ∀ s ∈ optimize I, s.power_w = -(I.max_charge_w.fdiv 2) ∧ s.power_w ≤ 0 ∧
        s.max_soc = pyInt (min 95 (I.reserve_soc + I.ev_reserve_soc + 15)) ∧
        s.min_soc = pyInt I.reserve_soc := by
  have hst : chargeDischargeStage I = [] :=
    chargeDischargeStage_of_classify_empty I (classifyQuarters_zelfverbruik_low I hm hsoc)
  have hopt : optimize I = appendEvRuns I (groupConsecutive (nightQuarters I)) [] := by
    unfold optimize
    rw [ha, hm, hst, hev]
    rw [if_neg (by decide), if_pos (by decide)]
  have hnq : nightQuarters I ≠ [] := nightQuarters_ne_nil I hnight
  have hgs : groupConsecutive (nightQuarters I) ≠ [] := groupConsecutive_ne_nil hnq
  constructor
  · rw [hopt]
    obtain ⟨g, gs, hG⟩ : ∃ g gs, groupConsecutive (nightQuarters I) = g :: gs := by
      cases hE : groupConsecutive (nightQuarters I) with
      | nil => exact absurd hE hgs
      | cons a b => exact ⟨a, b, rfl⟩
    rw [hG, appendEvRuns_nil_start]
    exact appendEvRuns_ne_nil gs [evSlot I g] (by simp)
  · intro s hs
    rw [hopt] at hs
    rcases mem_appendEvRuns hs with hm1 | ⟨g', _, rfl⟩
    · simp at hm1
    · refine ⟨rfl, ?_, rfl, rfl⟩
      show -(I.max_charge_w.fdiv 2) ≤ 0
      have h1 := fdiv_two_nonneg hcw
      omega

/-- A SelfConsumption scenario: EV charging, SOC at the reserve, four
expensive buckets in the 23:00 hour. -/
def evNightInput : OptInputs :=
  { mode := "Zelfverbruik", active := "on", reserve_soc := 15, ev_reserve_soc := 20,
    high_price := 1/4, low_price := 2/25, current_soc := 15, ev_charging := true,
    max_charge_w := 2400, max_discharge_w := 2400,
    prices := [(23, 0, 1/4), (23, 15, 1/4), (23, 30, 1/4), (23, 45, 1/4)],
    solar := fun _ => 0, consumption := fun _ => 1/2 }

/-- C9 witness: the EV-top-up scenario at a concrete input. -/
theorem optimize_ev_topup_witness :
    optimize evNightInput ≠ [] ∧
      ∀ s ∈ optimize evNightInput,
        s.power_w = -(evNightInput.max_charge_w.fdiv 2) ∧ s.power_w ≤ 0 ∧
        s.max_soc =
          pyInt (min 95 (evNightInput.reserve_soc + evNightInput.ev_reserve_soc + 15)) ∧
        s.min_soc = pyInt evNightInput.reserve_soc :=
  optimize_ev_topup evNightInput rfl rfl rfl
    (by norm_num [effectiveReserve, evNightInput])
    (by norm_num [evNightInput])
    ⟨(23, 0, 1/4), by norm_num [evNightInput], Or.inl (by norm_num)⟩

end SunpuraEms
